import Mathlib

/-!
Verification of the xquant backtesting library.

This file gives a shallow embedding, in Lean 4, of the parts of the
`xquant` Python package that the specification's claims are about:

* `xquant/portfolio.py`  — `Portfolio`, `get_stock_liquidation`,
  `get_net_liquidation`;
* `xquant/transaction.py` — `buy`;
* `xquant/util/period.py` — `Period`;
* `xquant/backtest/holdings.py` — `Holdings.get_portfolio`;
* `xquant/backtest/backtest.py` — `run_backtest`;
* `xquant/backtest/metrics.py` — `get_daily_returns`,
  `get_cumulative_return`, `get_annualized_return`, `get_max_drawdown`,
  `get_strategy_volatility`, `get_sharpe_ratio`, `get_beta`,
  `get_pl_ratio`.

Modelling conventions:

* Prices, shares and cash are exact rationals (`ℚ`).  The Python code
  computes with IEEE floats; the embedding uses exact real arithmetic on
  the rational fragment, and the special float values that the numpy
  operations can produce (`inf`, `-inf`, `nan`) are modelled explicitly
  by the `RVal` type where a claim depends on them.
* A pandas `DataFrame` of prices is a `PriceTable`: a column list and a
  list of rows, each row a date paired with one optional cell per
  column.  A cell `none` models a stored `NaN` ("no trade that day");
  a date that has no row at all models a date absent from the index.
* Fallible Python code is embedded with the `PRes` result type; the
  `PyErr` constructors name the Python exception that is raised
  (`TypeError`, `KeyError`, the `Exception('Insufficient cash, ...')`
  of `buy`, the `Exception('date not within holdings history')` of
  `Holdings.get_portfolio`).
* Timestamps are day-granular.  Valuation dates are proleptic-Gregorian
  ordinals (`ℤ`, as in Python's `date.toordinal`); the backtest driver
  and the metrics that need calendar structure use an explicit
  year/month/day `Date` record.
-/

/-- The Python exceptions that the embedded fragments can raise. -/
inductive PyErr where
  | typeError
  | keyError
  | insufficientFunds
  | lookupError
  | outOfFuel
deriving DecidableEq

/-- Result of running an embedded fragment of Python: a value or a raised
exception. -/
inductive PRes (α : Type) where
  | ok : α → PRes α
  | err : PyErr → PRes α
deriving DecidableEq

/-- A float that may be NaN: `none` is NaN, `some q` the (exact) value. -/
abbrev NFloat := Option ℚ

/-- NaN-propagating addition (`x + y` on floats where `none` is NaN). -/
def nadd : NFloat → NFloat → NFloat
  | some a, some b => some (a + b)
  | _, _ => none

/-- NaN-propagating subtraction. -/
def nsub : NFloat → NFloat → NFloat
  | some a, some b => some (a - b)
  | _, _ => none

/-- NaN-propagating multiplication. -/
def nmul : NFloat → NFloat → NFloat
  | some a, some b => some (a * b)
  | _, _ => none

/-- `a < x` for a float `x` that may be NaN: every comparison against NaN
is `False` in Python. -/
def ltNa (a : ℚ) : NFloat → Bool
  | some v => decide (a < v)
  | none => false

/-- A pandas price `DataFrame`: ticker columns, and date-indexed rows of
cells aligned with `cols`.  A `none` cell is a stored NaN; a date with no
row is absent from the index. -/
structure PriceTable where
  cols : List String
  rows : List (ℤ × List NFloat)
deriving DecidableEq

/-- The cell of a row in column `j` (`NaN` when the row is ragged). -/
def cellAt (r : ℤ × List NFloat) (j : ℕ) : NFloat := r.2.getD j none

/-- `df_prices.loc[:date]`: keep the rows whose date is at most `date`. -/
def trimTable (tbl : PriceTable) (date : ℤ) : PriceTable :=
  ⟨tbl.cols, tbl.rows.filter (fun r => decide (r.1 ≤ date))⟩

/-- `Series.last_valid_index` followed by `.at[last_traded, stock]`:
the value of the last (bottom-most) row whose cell in column `j` is
valid, `none` when every cell of the column is NaN. -/
def lastValid (j : ℕ) : List (ℤ × List NFloat) → NFloat
  | [] => none
  | r :: rest =>
    match lastValid j rest with
    | some v => some v
    | none => cellAt r j

/-- `.at[date, stock]` row lookup: the first row carrying `date`
(`DataFrame.at` label lookup; a well-formed index has at most one). -/
def findRow (date : ℤ) : List (ℤ × List NFloat) → Option (ℤ × List NFloat)
  | [] => none
  | r :: rest => if r.1 = date then some r else findRow date rest

/-- The per-ticker lookup of `Portfolio.get_stock_liquidation`
(portfolio.py lines 27-33, run on the trimmed table):
`try: price = df_prices.at[date, stock]` — if the row exists the stored
cell is returned as-is (a NaN cell is NOT substituted); on `KeyError`
(row absent) the code falls back to
`df_prices.at[df_prices[stock].last_valid_index(), stock]`, which is the
last valid price in the trimmed column, and itself raises `KeyError`
when the column is absent (`df_prices[stock]`) or when no valid price
exists (`last_valid_index()` returns `None` and `.at[None, stock]`
fails). -/
def stockPrice (tbl : PriceTable) (date : ℤ) (t : String) : PRes NFloat :=
  match tbl.cols.findIdx? (fun c => c = t) with
  | none => .err .keyError
  | some j =>
    match findRow date tbl.rows with
    | some r => .ok (cellAt r j)
    | none =>
      match lastValid j tbl.rows with
      | some v => .ok (some v)
      | none => .err .keyError

/-- `xquant.portfolio.Portfolio`: long and short position maps (kept as
association lists in iteration order) and cash. -/
structure Portfolio where
  long : List (String × ℚ)
  short : List (String × ℚ)
  cash : ℚ
deriving DecidableEq

/-- The long-position loop of `get_stock_liquidation`:
`agg_stock_value += long_price * shares` for each held stock, with the
first lookup failure aborting the call. -/
def valueLongs (tbl : PriceTable) (date : ℤ) :
    List (String × ℚ) → NFloat → PRes NFloat
  | [], acc => .ok acc
  | (t, sh) :: rest, acc =>
    match stockPrice tbl date t with
    | .err e => .err e
    | .ok price => valueLongs tbl date rest (nadd acc (nmul price (some sh)))

/-- The short-position loop of `get_stock_liquidation`:
`agg_stock_value -= short_price * shares`. -/
def valueShorts (tbl : PriceTable) (date : ℤ) :
    List (String × ℚ) → NFloat → PRes NFloat
  | [], acc => .ok acc
  | (t, sh) :: rest, acc =>
    match stockPrice tbl date t with
    | .err e => .err e
    | .ok price => valueShorts tbl date rest (nsub acc (nmul price (some sh)))

/-- `Portfolio.get_stock_liquidation(date, df_prices)`: trim the table to
dates `≤ date`, start from `agg_stock_value = 0`, add every long
position's value, then subtract every short position's value. -/
def get_stock_liquidation (p : Portfolio) (date : ℤ) (tbl : PriceTable) :
    PRes NFloat :=
  let trimmed := trimTable tbl date
  match valueLongs trimmed date p.long (some 0) with
  | .err e => .err e
  | .ok aggL => valueShorts trimmed date p.short aggL

/-- `Portfolio.get_net_liquidation` exactly as written in the source:
its signature is `(self, date=None)` — it accepts no price table — and
its body evaluates `self.get_stock_liquidation(date)`, a call that omits
the required `df_prices` parameter.  Python raises `TypeError` inside
that call, before `self.cash` is ever added, so every invocation of the
method errors out. -/
def get_net_liquidation (_p : Portfolio) (_date : ℤ) : PRes NFloat :=
  .err .typeError

/-- `df_prices.at[date, ticker]` as used (without a `try`) by
`transaction.buy`: `KeyError` when the row or the column is absent,
otherwise the stored cell (possibly NaN). -/
def atPrice (tbl : PriceTable) (date : ℤ) (t : String) : PRes NFloat :=
  match tbl.cols.findIdx? (fun c => c = t) with
  | none => .err .keyError
  | some j =>
    match findRow date tbl.rows with
    | some r => .ok (cellAt r j)
    | none => .err .keyError

/-- `transaction.buy` exactly as written: look the price up, raise
`Exception('Insufficient cash, cannot fill order')` when
`portfolio.cash < price * shares`; otherwise deduct the cash and then
evaluate `if ticker in portfolio.long.keys:` — `keys` without the call
parentheses is the bound method object, and `in` applied to it raises
`TypeError: argument of type 'builtin_function_or_method' is not
iterable`, so the sufficient-funds branch never returns the updated
portfolio. -/
def buy (p : Portfolio) (tbl : PriceTable) (ticker : String) (shares : ℚ)
    (date : ℤ) : PRes Portfolio :=
  match atPrice tbl date ticker with
  | .err e => .err e
  | .ok price =>
    let total_value := nmul price (some shares)
    if ltNa p.cash total_value then .err .insufficientFunds
    else .err .typeError

/-- A day-granular timestamp (proleptic Gregorian calendar). -/
structure Date where
  year : ℕ
  month : ℕ
  day : ℕ
deriving DecidableEq

/-- Gregorian leap-year test. -/
def isLeap (y : ℕ) : Bool := (y % 4 = 0 ∧ y % 100 ≠ 0) ∨ y % 400 = 0

/-- Number of days in a month. -/
def daysInMonth (y m : ℕ) : ℕ :=
  if m = 2 then (if isLeap y then 29 else 28)
  else if m = 4 ∨ m = 6 ∨ m = 9 ∨ m = 11 then 30
  else 31

/-- Days in year `y` strictly before month `m`. -/
def daysBeforeMonth (y m : ℕ) : ℕ :=
  (List.range (m - 1)).foldl (fun a i => a + daysInMonth y (i + 1)) 0

/-- Python's `date.toordinal`: day 1 is 0001-01-01. -/
def toOrdinal (d : Date) : ℤ :=
  let n : ℤ := (d.year : ℤ) - 1
  365 * n + n / 4 - n / 100 + n / 400 + (daysBeforeMonth d.year d.month : ℤ)
    + (d.day : ℤ)

/-- `dateutil.relativedelta(months=k)` added to a date: shift the month,
carry into the year, and clamp the day to the target month's length. -/
def addMonths (d : Date) (k : ℕ) : Date :=
  let t := 12 * d.year + (d.month - 1) + k
  let y := t / 12
  let m := t % 12 + 1
  ⟨y, m, min d.day (daysInMonth y m)⟩

/-- `date - relativedelta(days=1)`. -/
def subOneDay (d : Date) : Date :=
  if 1 < d.day then ⟨d.year, d.month, d.day - 1⟩
  else if 1 < d.month then ⟨d.year, d.month - 1, daysInMonth d.year (d.month - 1)⟩
  else ⟨d.year - 1, 12, 31⟩

/-- `xquant.util.period.Period`: `start_time`, `end_time`, and the
derived `duration`, all in days (timestamps as ordinals, durations as
day counts). -/
structure PeriodT where
  start_time : ℤ
  end_time : ℤ
  duration : ℤ
deriving DecidableEq

/-- `Period.__init__` on the `(start_time, end_time)` path: asserts
`(end_time - start_time).total_seconds() > 0` and derives
`duration = end_time - start_time`; `none` models the `AssertionError`. -/
def periodFromEnd (start_time end_time : ℤ) : Option PeriodT :=
  if 0 < end_time - start_time then
    some ⟨start_time, end_time, end_time - start_time⟩
  else none

/-- `Period.__init__` on the `(start_time, duration)` path: asserts
`duration.total_seconds() > 0` and derives
`end_time = start_time + duration`. -/
def periodFromDuration (start_time duration : ℤ) : Option PeriodT :=
  if 0 < duration then some ⟨start_time, start_time + duration, duration⟩
  else none

/-- `Period.contains_time`: the inclusive test
`start_time <= time <= end_time`. -/
def contains_time (pr : PeriodT) (t : ℤ) : Bool :=
  decide (pr.start_time ≤ t ∧ t ≤ pr.end_time)

/-- `Holdings.get_portfolio(time)`: scan the `(Period, Portfolio)`
entries in insertion order, return the portfolio of the first period
containing `time`, and raise `Exception('date not within holdings
history')` when none does. -/
def get_portfolio : List (PeriodT × Portfolio) → ℤ → PRes Portfolio
  | [], _ => .err .lookupError
  | e :: rest, t =>
    if contains_time e.1 t then .ok e.2 else get_portfolio rest t

/-- The `while now < end_time` loop of `run_backtest`, with a fuel bound
on the number of iterations.  The first iteration calls
`stock_selection(funds=init_funds, date=now)`; every later iteration
first evaluates `last_portfolio.get_net_liquidation(now, df_price)` —
but `get_net_liquidation`'s signature is `(self, date=None)`, so this
two-argument call raises `TypeError` and aborts the run.  Each completed
iteration records the selected portfolio under
`Period(now, now + relativedelta(months=freq) - relativedelta(days=1))`
and advances `now` by `freq` calendar months. -/
def backtestLoop (sel : ℚ → Date → Portfolio) (init_funds : ℚ) (freq : ℕ)
    (end_time : Date) :
    ℕ → Date → Option Portfolio → List ((Date × Date) × Portfolio) →
    PRes (List ((Date × Date) × Portfolio))
  | 0, _, _, _ => .err .outOfFuel
  | fuel + 1, now, last, acc =>
    if toOrdinal now < toOrdinal end_time then
      match last with
      | none =>
        let p := sel init_funds now
        let next := addMonths now freq
        backtestLoop sel init_funds freq end_time fuel next (some p)
          (acc ++ [((now, subOneDay next), p)])
      | some _ => .err .typeError
    else .ok acc

/-- `xquant.backtest.backtest.run_backtest(start_time, end_time,
df_price, stock_selection, init_funds, rebalance_freq)`.  The price
table does not appear: the only place the source uses it is the
`get_net_liquidation` call that raises `TypeError` before reading it. -/
def run_backtest (sel : ℚ → Date → Portfolio) (init_funds : ℚ) (freq : ℕ)
    (start_time end_time : Date) (fuel : ℕ) :
    PRes (List ((Date × Date) × Portfolio)) :=
  backtestLoop sel init_funds freq end_time fuel start_time none []

/-- Python's `round(q, 4)` on an exactly-representable value: round half
to even at four decimal places. -/
def roundHalfEven (q : ℚ) : ℤ :=
  let f := ⌊q⌋
  let r := q - (f : ℚ)
  if r < 1/2 then f
  else if 1/2 < r then f + 1
  else if f % 2 = 0 then f else f + 1

/-- `round(x, 4)`. -/
def round4 (q : ℚ) : ℚ := (roundHalfEven (q * 10000) : ℚ) / 10000

/-- The loop of `get_daily_returns`: given yesterday's price and the
remaining prices, emit `round((today - yesterday)/yesterday, 4)` for
each day. -/
def dailyAux : ℚ → List ℚ → List ℚ
  | _, [] => []
  | prev, p :: rest => round4 ((p - prev) / prev) :: dailyAux p rest

/-- `metrics.get_daily_returns` on the price values in ascending date
order (the source sorts by index first): `daily_change = [0]` followed
by the rounded day-over-day changes.  The empty case is excluded by the
claims (the source would fail building the result `Series`). -/
def get_daily_returns : List ℚ → List ℚ
  | [] => []
  | p :: rest => 0 :: dailyAux p rest

/-- A date-indexed price series (a pandas `Series` with `DatetimeIndex`),
in index order. -/
abbrev Series := List (Date × ℚ)

/-- `prices.loc[start_date:end_date]` on a sorted `DatetimeIndex`. -/
def filterDates (s : Series) (d0 d1 : Date) : Series :=
  s.filter (fun e =>
    decide (toOrdinal d0 ≤ toOrdinal e.1 ∧ toOrdinal e.1 ≤ toOrdinal d1))

/-- `metrics.get_cumulative_return(prices, start_date, end_date)`:
re-slice to the window, re-anchor the dates to the window's first and
last index entries, and return `round((revenue - cost)/cost, 4)`;
`none` models the `IndexError` on an empty window. -/
def get_cumulative_return (s : Series) (d0 d1 : Date) : Option ℚ :=
  let w := filterDates s d0 d1
  match w.head?, w.getLast? with
  | some a, some b => some (round4 ((b.2 - a.2) / a.2))
  | _, _ => none

/-- The `period` argument of `get_annualized_return`
(`'d'`, `'w'` or `'m'`; anything else fails the source's assert). -/
inductive Freq where
  | d
  | w
  | m
deriving DecidableEq

/-- The index of the pandas weekly period (`to_period('W')`, weeks ending
Sunday) containing a date: ordinal 1 (0001-01-01) is a Monday, so the
days of one week share `(toOrdinal - 1) / 7`. -/
def weekIdx (d : Date) : ℤ := (toOrdinal d - 1) / 7

/-- The index of the pandas monthly period (`to_period('M')`) containing
a date. -/
def monthIdx (d : Date) : ℤ := 12 * (d.year : ℤ) + (d.month : ℤ) - 1

/-- The exponent of `get_annualized_return`: `250/days` of elapsed
calendar days for `'d'`, `52/weeks` of elapsed weekly periods for `'w'`,
`12/months` of elapsed monthly periods for `'m'`; `none` models the
`ZeroDivisionError` when no time has elapsed in the chosen unit. -/
def annExp (a0 a1 : Date) : Freq → Option ℚ
  | .d =>
    let days := toOrdinal a1 - toOrdinal a0
    if days = 0 then none else some (250 / (days : ℚ))
  | .w =>
    let weeks := weekIdx a1 - weekIdx a0
    if weeks = 0 then none else some (52 / (weeks : ℚ))
  | .m =>
    let months := monthIdx a1 - monthIdx a0
    if months = 0 then none else some (12 / (months : ℚ))

/-- `pow(b, e)` for float base and exponent, modelled as exact real
exponentiation restricted to the arguments on which the result is again
rational: base 1, exponent 1, or a non-negative integer exponent.
Outside that fragment (`b^(250/days)` with a fractional exponent is
irrational in general) the model returns `none`. -/
def pyPow (b e : ℚ) : Option ℚ :=
  if b = 1 then some 1
  else if e = 1 then some b
  else if e.den = 1 ∧ 0 ≤ e.num then some (b ^ e.num.toNat)
  else none

/-- `metrics.get_annualized_return(prices, start_date, end_date,
period)`: slice to the window, re-anchor `start_date`/`end_date` to the
window's first and last index entries, compute the cumulative return,
the exponent for the elapsed time, and
`round(pow(1 + cum_rtn, exp) - 1, 4)`. -/
def get_annualized_return (s : Series) (d0 d1 : Date) (f : Freq) :
    Option ℚ :=
  let w := filterDates s d0 d1
  match w.head?, w.getLast? with
  | some a, some b =>
    match get_cumulative_return w a.1 b.1 with
    | none => none
    | some cum =>
      match annExp a.1 b.1 f with
      | none => none
      | some e => (pyPow (1 + cum) e).map (fun y => round4 (y - 1))
  | _, _ => none

/-- The loop of `get_max_drawdown`: for each day's price `p`, the lowest
price at or after that day is `min` of the remaining suffix, the
drawdown is `(p - lowest)/p`, and the running maximum starts at 0. -/
def mddLoop : ℚ → List ℚ → ℚ
  | acc, [] => acc
  | acc, p :: rest =>
    let lowest := rest.foldl min p
    let drawdown := (p - lowest) / p
    mddLoop (if acc < drawdown then drawdown else acc) rest

/-- `metrics.get_max_drawdown(prices, start_date, end_date)`: slice to
the window and take `round(max(0, max over days of
(price - future minimum)/price), 4)`; `none` models the `IndexError` on
an empty window. -/
def get_max_drawdown (s : Series) (d0 d1 : Date) : Option ℚ :=
  let w := filterDates s d0 d1
  match w with
  | [] => none
  | _ => some (round4 (mddLoop 0 (w.map (fun e => e.2))))

/-- A numpy float64 scalar: finite (exact) value, `inf`, `-inf` or
`nan`. -/
inductive RVal where
  | fin : ℚ → RVal
  | inf
  | ninf
  | nan
deriving DecidableEq

/-- numpy float division of finite values: division by zero emits a
`RuntimeWarning` and yields `inf`, `-inf` or `nan` — it does not
raise. -/
def fdiv (a b : ℚ) : RVal :=
  if b = 0 then (if 0 < a then .inf else if a < 0 then .ninf else .nan)
  else .fin (a / b)

/-- numpy float division on possibly non-finite operands (signed zeros
are not modelled; no operand of the claims is a negative zero). -/
def rdivR : RVal → RVal → RVal
  | .nan, _ => .nan
  | _, .nan => .nan
  | .fin a, .fin b => fdiv a b
  | .inf, .fin b => if 0 ≤ b then .inf else .ninf
  | .ninf, .fin b => if 0 ≤ b then .ninf else .inf
  | .fin _, .inf => .fin 0
  | .fin _, .ninf => .fin 0
  | .inf, .inf => .nan
  | .inf, .ninf => .nan
  | .ninf, .inf => .nan
  | .ninf, .ninf => .nan

/-- Python's `round(x, 4)` on a numpy scalar: finite values round, and
`inf`/`-inf`/`nan` pass through unchanged. -/
def roundR : RVal → RVal
  | .fin q => .fin (round4 q)
  | x => x

/-- `np.mean` of a list: the mean, or `nan` (with a `RuntimeWarning`)
for an empty list. -/
def npMean : List ℚ → RVal
  | [] => .nan
  | l => .fin (l.sum / (l.length : ℚ))

/-- Population variance (`np.std(..)**2`, `ddof=0`). -/
def popVar (l : List ℚ) : ℚ :=
  let n : ℚ := (l.length : ℚ)
  let m := l.sum / n
  (l.map (fun x => (x - m) ^ 2)).sum / n

/-- Sample variance (`np.var(.., ddof=1)`). -/
def sampleVar (l : List ℚ) : ℚ :=
  let n : ℚ := (l.length : ℚ)
  let m := l.sum / n
  (l.map (fun x => (x - m) ^ 2)).sum / (n - 1)

/-- Sample covariance (`np.cov(x, y)[0][1]`, `ddof=1`). -/
def sampleCov (x y : List ℚ) : ℚ :=
  let n : ℚ := (x.length : ℚ)
  let mx := x.sum / n
  let my := y.sum / n
  ((x.zip y).map (fun p => (p.1 - mx) * (p.2 - my))).sum / (n - 1)

/-- Exact rational square root: `some r` when `q` is the square of a
rational, `none` otherwise (the real value is then irrational and
outside the model). -/
def ratSqrt (q : ℚ) : Option ℚ :=
  if 0 ≤ q.num then
    let a := Nat.sqrt q.num.toNat
    let b := Nat.sqrt q.den
    if a * a = q.num.toNat ∧ b * b = q.den then some ((a : ℚ) / (b : ℚ))
    else none
  else none

/-- `metrics.get_strategy_volatility`: slice to the window, take the
daily returns, and compute `round(np.std(chg) * np.sqrt(250), 4)`
(in exact arithmetic, `sqrt(250 * variance)`); `none` on an empty
window or when the square root is irrational. -/
def get_strategy_volatility (s : Series) (d0 d1 : Date) : Option ℚ :=
  let w := filterDates s d0 d1
  let chg := get_daily_returns (w.map (fun e => e.2))
  match chg with
  | [] => none
  | _ => (ratSqrt (250 * popVar chg)).map round4

/-- `metrics.get_sharpe_ratio(prices, start_date, end_date, risk_free)`:
after the `0 <= risk_free <= 1` assert, slice and re-anchor, compute the
annualized return and the volatility, and return
`round((ann_rtn - risk_free) / vo, 4)` — the division is numpy float
division, so zero volatility silently produces `inf`/`-inf`/`nan`. -/
def get_sharpe_ratio (s : Series) (d0 d1 : Date) (rf : ℚ) : Option RVal :=
  if 0 ≤ rf ∧ rf ≤ 1 then
    let w := filterDates s d0 d1
    match w.head?, w.getLast? with
    | some a, some b =>
      match get_annualized_return w a.1 b.1 Freq.d,
            get_strategy_volatility w a.1 b.1 with
      | some ann, some vo => some (roundR (fdiv (ann - rf) vo))
      | _, _ => none
    | _, _ => none
  else none

/-- `metrics.get_beta(strategy, benchmark, start_date, end_date)`:
daily returns of both sliced series, then
`round(np.cov(r_strategy, r_benchmark)[0][1] / np.var(r_benchmark,
ddof=1), 4)` — numpy float division, so a constant benchmark (zero
variance) silently produces `nan` or `±inf`.  `none` when the lengths
differ or fewer than two observations exist (outside the claims). -/
def get_beta (strat bench : Series) (d0 d1 : Date) : Option RVal :=
  let ws := filterDates strat d0 d1
  let wb := filterDates bench d0 d1
  let rs := get_daily_returns (ws.map (fun e => e.2))
  let rb := get_daily_returns (wb.map (fun e => e.2))
  if rs.length = rb.length ∧ 2 ≤ rb.length then
    some (roundR (fdiv (sampleCov rs rb) (sampleVar rb)))
  else none

/-- `metrics.get_pl_ratio(start_date, end_date, holdings, df_price)`:
keep the periods whose `start_time` lies in `[start_date, end_date]`,
drop the first, and for each remaining period value the recorded
portfolio at the period's boundaries via
`portfolio.get_net_liquidation(period.start_time, df_price)` — a
two-argument call of the one-argument method, which raises `TypeError`
as soon as one period is processed.  With no periods to process both
`profit` and `loss` stay empty and the function returns
`np.mean([]) / np.mean([])`, i.e. `nan`, raising nothing. -/
def get_pl_ratio (d0 d1 : ℤ) (holdings : List (PeriodT × Portfolio))
    (_tbl : PriceTable) : PRes RVal :=
  let periods := ((holdings.map (fun e => e.1)).filter
    (fun pr => decide (d0 ≤ pr.start_time ∧ pr.start_time ≤ d1))).drop 1
  match periods with
  | [] => .ok (rdivR (npMean []) (npMean []))
  | _ :: _ => .err .typeError

/-! ## Shared lemmas -/

theorem round4_nonneg {q : ℚ} (h : 0 ≤ q) : 0 ≤ round4 q := by
  simp only [round4, roundHalfEven]
  have h4 : (0 : ℚ) ≤ q * 10000 := by positivity
  have hf : (0 : ℤ) ≤ ⌊q * 10000⌋ := Int.floor_nonneg.mpr h4
  have hf1 : (0 : ℤ) ≤ ⌊q * 10000⌋ + 1 := by omega
  split_ifs <;> refine div_nonneg ?_ (by norm_num) <;>
    first
      | exact_mod_cast hf
      | exact_mod_cast hf1

theorem round4_zero : round4 0 = 0 := by
  norm_num [round4, roundHalfEven]

/-! ## C1 -/

/-- C1: the claim is a code bug.  The spec's
`net_liquidation(date, priceTable) = value_positions(date, priceTable) + cash`
is clearly the intent (every caller in the repository passes the price
table), but the method's signature is `(self, date=None)` and its body
forwards only `date` to `get_stock_liquidation`, which requires
`df_prices`; every call therefore raises `TypeError` and the sum with
`cash` is never formed.  The positions themselves do value to 50 in the
claim's example, as `get_stock_liquidation` shows. -/
theorem net_liquidation_arity_bug :
    (∀ (p : Portfolio) (d : ℤ),
      get_net_liquidation p d = PRes.err PyErr.typeError)
    ∧ get_stock_liquidation ⟨[("A", 10)], [], 0⟩ 0 ⟨["A"], [(0, [some 5])]⟩
        = PRes.ok (some 50)
    ∧ nadd (some 50) (some 0) = some 50 := by
  refine ⟨fun _ _ => rfl, ?_, by norm_num [nadd]⟩
  simp [get_stock_liquidation, trimTable, valueLongs, valueShorts, stockPrice,
    cellAt, lastValid, nadd, nmul, findRow, List.filter, List.findIdx?]
  norm_num

/-! ## C3 -/

/-- C3: the claim is a code bug.  A run whose horizon needs only one
rebalance does record the selected portfolio under
`Period(now, now + rebalanceMonths - 1 day)` and terminate, but from the
second iteration on the funding computation
`last_portfolio.get_net_liquidation(now, df_price)` passes two arguments
to the one-argument method and raises `TypeError`, so no run crossing
two or more rebalance boundaries ever returns a Holdings: here a
two-month horizon at monthly rebalancing aborts instead of recording
two periods. -/
theorem run_backtest_arity_bug :
    run_backtest (fun _ _ => ⟨[("A", 1)], [], 0⟩) 100 1
        ⟨2020, 1, 1⟩ ⟨2020, 3, 1⟩ 10 = PRes.err PyErr.typeError
    ∧ run_backtest (fun _ _ => ⟨[("A", 1)], [], 0⟩) 100 1
        ⟨2020, 1, 1⟩ ⟨2020, 2, 1⟩ 10
        = PRes.ok [((⟨2020, 1, 1⟩, ⟨2020, 1, 31⟩), ⟨[("A", 1)], [], 0⟩)] := by
  exact ⟨by decide, by decide⟩

/-! ## C7 -/

/-- C7: the claim is a code bug.  `buy` does raise the insufficient-cash
error exactly when `cash < price * shares`, but its success branch tests
`ticker in portfolio.long.keys` — `keys` without call parentheses — so
every sufficient-funds purchase raises `TypeError` (after the cash was
already deducted in the Python object) instead of incrementing the long
position: here cash 100 amply covers the 5-per-share order and the call
still errors. -/
theorem buy_keys_bug :
    buy ⟨[], [], 100⟩ ⟨["A"], [(0, [some 5])]⟩ "A" 1 0
        = PRes.err PyErr.typeError
    ∧ buy ⟨[], [], 3⟩ ⟨["A"], [(0, [some 5])]⟩ "A" 1 0
        = PRes.err PyErr.insufficientFunds
    ∧ ¬ ((100 : ℚ) < 5 * 1) := by
  refine ⟨?_, ?_, by norm_num⟩ <;>
    · simp [buy, atPrice, ltNa, nmul, cellAt, findRow, List.filter,
        List.findIdx?]
      norm_num

/-! ## C9 -/

/-- C9 counterexample: the claim that degenerate divisions fail loudly
with an `ArithmeticDomainError` is false.  On a constant price series
the volatility is zero and `get_sharpe_ratio` performs the numpy float
division `(ann_rtn - risk_free) / 0.0`, which silently returns `-inf`
(the annualized return 0 lies below the risk-free rate 0.04): the call
returns a value and raises nothing. -/
theorem degenerate_division_counterexample :
    get_sharpe_ratio [(⟨2020, 1, 1⟩, 5), (⟨2020, 1, 2⟩, 5)]
        ⟨2020, 1, 1⟩ ⟨2020, 1, 2⟩ (1/25) = some RVal.ninf := by
  norm_num [get_sharpe_ratio, filterDates, get_annualized_return,
    get_cumulative_return, get_strategy_volatility, get_daily_returns,
    dailyAux, annExp, pyPow, round4, roundHalfEven, popVar, ratSqrt, fdiv,
    roundR, toOrdinal, daysBeforeMonth, daysInMonth, isLeap, List.filter,
    List.range, List.foldl]

/-- C9 (amended): the degenerate divisions follow numpy float semantics
and silently return non-finite values instead of raising: zero
volatility makes `get_sharpe_ratio` return `-inf` (or `+inf`/`nan`
depending on the numerator's sign); zero benchmark variance makes
`get_beta` return `nan` (or `±inf`); and `get_pl_ratio` returns
`np.mean([])/np.mean([]) = nan` when no period is processed — while any
run that does process a period aborts with `TypeError` from the
mis-aritied `get_net_liquidation` call before reaching its division.
No `ArithmeticDomainError` exists in the code. -/
theorem degenerate_division_behavior :
    get_sharpe_ratio [(⟨2020, 1, 1⟩, 5), (⟨2020, 1, 2⟩, 5)]
        ⟨2020, 1, 1⟩ ⟨2020, 1, 2⟩ (1/25) = some RVal.ninf
    ∧ get_beta [(⟨2020, 1, 1⟩, 5), (⟨2020, 1, 2⟩, 8)]
        [(⟨2020, 1, 1⟩, 7), (⟨2020, 1, 2⟩, 7)]
        ⟨2020, 1, 1⟩ ⟨2020, 1, 2⟩ = some RVal.nan
    ∧ get_pl_ratio 0 100 [(⟨1, 30, 29⟩, ⟨[("A", 1)], [], 0⟩)] ⟨["A"], []⟩
        = PRes.ok RVal.nan
    ∧ get_pl_ratio 0 100
        [(⟨1, 30, 29⟩, ⟨[("A", 1)], [], 0⟩),
         (⟨31, 60, 29⟩, ⟨[("A", 1)], [], 0⟩)] ⟨["A"], []⟩
        = PRes.err PyErr.typeError := by
  refine ⟨?_, ?_, ?_, ?_⟩
  · norm_num [get_sharpe_ratio, filterDates, get_annualized_return,
      get_cumulative_return, get_strategy_volatility, get_daily_returns,
      dailyAux, annExp, pyPow, round4, roundHalfEven, popVar, ratSqrt, fdiv,
      roundR, toOrdinal, daysBeforeMonth, daysInMonth, isLeap, List.filter,
      List.range, List.foldl]
  · norm_num [get_beta, filterDates, get_daily_returns, dailyAux, sampleCov,
      sampleVar, fdiv, roundR, round4, roundHalfEven, toOrdinal,
      daysBeforeMonth, daysInMonth, isLeap, List.filter, List.range,
      List.foldl, List.zip, List.zipWith]
  · norm_num [get_pl_ratio, npMean, rdivR, List.filter]
  · norm_num [get_pl_ratio, npMean, rdivR, List.filter]

/-! ## C10 -/

/-- C10: confirmed.  Every successfully constructed `Period` — from
`(start_time, end_time)` or from `(start_time, duration)` — satisfies
`end_time = start_time + duration` and `duration > 0`; the remaining
operations (`contains_time`, the comparisons, equality, hashing) only
read the fields, which the functional embedding renders immutable by
construction. -/
theorem period_invariants :
    ∀ (s e d : ℤ) (p : PeriodT),
      (periodFromEnd s e = some p →
        p.end_time = p.start_time + p.duration ∧ 0 < p.duration)
      ∧ (periodFromDuration s d = some p →
        p.end_time = p.start_time + p.duration ∧ 0 < p.duration) := by
  intro s e d p
  constructor
  · intro h
    rw [periodFromEnd] at h
    split_ifs at h with hc
    · cases h
      dsimp only
      omega
  · intro h
    rw [periodFromDuration] at h
    split_ifs at h with hc
    · cases h
      dsimp only
      omega

/-- C10 witness: both construction paths applied at concrete inputs. -/
theorem period_invariants_witness :
    ((⟨0, 5, 5⟩ : PeriodT).end_time
        = (⟨0, 5, 5⟩ : PeriodT).start_time + (⟨0, 5, 5⟩ : PeriodT).duration
      ∧ 0 < (⟨0, 5, 5⟩ : PeriodT).duration)
    ∧ ((⟨2, 9, 7⟩ : PeriodT).end_time
        = (⟨2, 9, 7⟩ : PeriodT).start_time + (⟨2, 9, 7⟩ : PeriodT).duration
      ∧ 0 < (⟨2, 9, 7⟩ : PeriodT).duration) :=
  ⟨(period_invariants 0 5 3 ⟨0, 5, 5⟩).1 (by decide),
   (period_invariants 2 9 7 ⟨2, 9, 7⟩).2 (by decide)⟩

/-! ## C4 -/

theorem dailyAux_getD (l : List ℚ) :
    ∀ (prev : ℚ) (j : ℕ), j < l.length →
      (dailyAux prev l).getD j 0
        = round4 ((l.getD j 0 - (prev :: l).getD j 0) / (prev :: l).getD j 0) := by
  induction l with
  | nil => intro prev j hj; simp at hj
  | cons a rest ih =>
    intro prev j hj
    cases j with
    | zero => simp [dailyAux]
    | succ k =>
      simp only [dailyAux, List.getD_cons_succ]
      exact ih a k (by simpa using hj)

/-- C4: confirmed.  For every price series of length at least two (in
ascending date order, with the nonzero prices the division presumes),
`daily_return[0] = 0` and
`daily_return[i] = round((P[i]-P[i-1])/P[i-1], 4)` for `i > 0`; and the
spec's example `[100, 110, 99]` yields `[0, 0.10, -0.1]`. -/
theorem daily_returns_spec :
    (∀ P : List ℚ, (∀ x ∈ P, x ≠ 0) → 2 ≤ P.length →
      (get_daily_returns P).getD 0 0 = 0
      ∧ ∀ i, 0 < i → i < P.length →
          (get_daily_returns P).getD i 0
            = round4 ((P.getD i 0 - P.getD (i - 1) 0) / P.getD (i - 1) 0))
    ∧ get_daily_returns [100, 110, 99] = [0, 1/10, -1/10] := by
  constructor
  · intro P _hnz hlen
    match P with
    | p :: rest =>
      refine ⟨by simp [get_daily_returns], ?_⟩
      intro i hi hlt
      match i, hi with
      | i + 1, _ =>
        simp only [get_daily_returns, List.getD_cons_succ, Nat.add_sub_cancel]
        exact dailyAux_getD rest p i (by simpa using hlt)
  · norm_num [get_daily_returns, dailyAux, round4, roundHalfEven]

/-- C4 witness: the general statement applied to the spec's example
series. -/
theorem daily_returns_spec_witness :
    (get_daily_returns [100, 110, 99]).getD 0 0 = 0
    ∧ (get_daily_returns [100, 110, 99]).getD 2 0
        = round4 ((([100, 110, 99] : List ℚ).getD 2 0
            - ([100, 110, 99] : List ℚ).getD 1 0)
          / ([100, 110, 99] : List ℚ).getD 1 0) := by
  have h := daily_returns_spec.1 [100, 110, 99] (by norm_num) (by norm_num)
  exact ⟨h.1, h.2 2 (by norm_num) (by norm_num)⟩

/-! ## C5 -/

theorem mddLoop_le (l : List ℚ) : ∀ acc : ℚ, acc ≤ mddLoop acc l := by
  induction l with
  | nil => intro acc; simp [mddLoop]
  | cons p rest ih =>
    intro acc
    simp only [mddLoop]
    refine le_trans ?_ (ih _)
    split_ifs with h
    · exact le_of_lt h
    · exact le_refl acc

theorem foldl_min_self {p : ℚ} {rest : List ℚ} (h : ∀ x ∈ rest, p ≤ x) :
    rest.foldl min p = p := by
  induction rest with
  | nil => rfl
  | cons a rest ih =>
    have ha : min p a = p := min_eq_left (h a (List.mem_cons_self a rest))
    simp only [List.foldl_cons, ha]
    exact ih (fun x hx => h x (List.mem_cons_of_mem a hx))

theorem mddLoop_sorted_zero (l : List ℚ) (hl : List.Pairwise (· ≤ ·) l) :
    mddLoop 0 l = 0 := by
  induction l with
  | nil => rfl
  | cons p rest ih =>
    rw [List.pairwise_cons] at hl
    have hmin : rest.foldl min p = p := foldl_min_self hl.1
    simp only [mddLoop, hmin]
    have h0 : (p - p) / p = 0 := by simp
    rw [h0, if_neg (lt_irrefl 0)]
    exact ih hl.2

/-- C5: confirmed.  On any window of positive prices the forward-looking
maximum drawdown is non-negative (it starts floored at 0 and only ever
increases), and it is exactly 0 when the window's prices are
monotonically non-decreasing (each day's future minimum is the day's own
price). -/
theorem max_drawdown_props (s : Series) (d0 d1 : Date) (r : ℚ)
    (_hpos : ∀ e ∈ filterDates s d0 d1, 0 < e.2)
    (hr : get_max_drawdown s d0 d1 = some r) :
    0 ≤ r
    ∧ (List.Pairwise (· ≤ ·) ((filterDates s d0 d1).map (fun e => e.2)) →
        r = 0) := by
  unfold get_max_drawdown at hr
  cases hw : filterDates s d0 d1 with
  | nil => rw [hw] at hr; exact absurd hr (by simp)
  | cons a w =>
    rw [hw] at hr
    have hrv : r = round4 (mddLoop 0 ((a :: w).map (fun e => e.2))) := by
      cases hr; rfl
    constructor
    · rw [hrv]
      exact round4_nonneg (mddLoop_le _ 0)
    · intro hmono
      rw [hrv, mddLoop_sorted_zero _ hmono, round4_zero]

/-- C5 witness: the theorem applied to a rising window (drawdown 0) and
to a falling window (drawdown 1/5 ≥ 0). -/
theorem max_drawdown_props_witness :
    (0 : ℚ) = 0 ∧ (0 : ℚ) ≤ 1/5 :=
  ⟨(max_drawdown_props [(⟨2020, 1, 1⟩, 10), (⟨2020, 1, 2⟩, 12)]
      ⟨2020, 1, 1⟩ ⟨2020, 1, 2⟩ 0
      (by decide)
      (by
        norm_num [get_max_drawdown, filterDates, mddLoop, round4,
          roundHalfEven, toOrdinal, daysBeforeMonth, daysInMonth, isLeap,
          List.filter, List.range, List.foldl])).2
    (by
      norm_num [filterDates, toOrdinal, daysBeforeMonth, daysInMonth, isLeap,
        List.filter, List.range, List.foldl]),
   (max_drawdown_props [(⟨2020, 1, 1⟩, 100), (⟨2020, 1, 2⟩, 80)]
      ⟨2020, 1, 1⟩ ⟨2020, 1, 2⟩ (1/5)
      (by decide)
      (by
        norm_num [get_max_drawdown, filterDates, mddLoop, round4,
          roundHalfEven, toOrdinal, daysBeforeMonth, daysInMonth, isLeap,
          List.filter, List.range, List.foldl])).1⟩

/-! ## C6 -/

/-- A series whose `DatetimeIndex` is strictly increasing (the pandas
label-slicing the metrics rely on requires a monotonic, duplicate-free
index). -/
abbrev SortedSeries (s : Series) : Prop :=
  List.Pairwise (fun a b => toOrdinal a.1 < toOrdinal b.1) s

theorem head_le_of_sorted {s : Series} (hs : SortedSeries s) {a : Date × ℚ}
    (ha : s.head? = some a) : ∀ e ∈ s, toOrdinal a.1 ≤ toOrdinal e.1 := by
  cases s with
  | nil => simp at ha
  | cons x rest =>
    cases ha
    have hp := List.pairwise_cons.mp hs
    intro e he
    rcases List.mem_cons.mp he with rfl | hmem
    · exact le_refl _
    · exact le_of_lt (hp.1 e hmem)

theorem le_getLast_of_sorted {s : Series} (hs : SortedSeries s)
    {b : Date × ℚ} (hb : s.getLast? = some b) :
    ∀ e ∈ s, toOrdinal e.1 ≤ toOrdinal b.1 := by
  induction s with
  | nil => simp at hb
  | cons x rest ih =>
    have hp := List.pairwise_cons.mp hs
    cases rest with
    | nil =>
      cases hb
      intro e he
      rcases List.mem_cons.mp he with rfl | hmem
      · exact le_refl _
      · simp at hmem
    | cons y rest' =>
      rw [List.getLast?_cons_cons] at hb
      have hbmem : b ∈ y :: rest' := by
        obtain ⟨hne, heq⟩ :=
          List.mem_getLast?_eq_getLast (Option.mem_def.mpr hb)
        rw [heq]
        exact List.getLast_mem hne
      intro e he
      rcases List.mem_cons.mp he with rfl | hmem
      · exact le_of_lt (hp.1 b hbmem)
      · exact ih hp.2 hb e hmem

theorem filterDates_self {s : Series} (hs : SortedSeries s)
    {a b : Date × ℚ} (ha : s.head? = some a) (hb : s.getLast? = some b) :
    filterDates s a.1 b.1 = s := by
  unfold filterDates
  rw [List.filter_eq_self]
  intro e he
  simp only [decide_eq_true_eq]
  exact ⟨head_le_of_sorted hs ha e he, le_getLast_of_sorted hs hb e he⟩

theorem cumulative_of_window {w : Series} (hs : SortedSeries w)
    {a b : Date × ℚ} (ha : w.head? = some a) (hb : w.getLast? = some b) :
    get_cumulative_return w a.1 b.1 = some (round4 ((b.2 - a.2) / a.2)) := by
  unfold get_cumulative_return
  dsimp only
  rw [filterDates_self hs ha hb, ha, hb]

/-- C6: confirmed.  `get_annualized_return` slices to the window,
re-anchors the dates to the window's actual first and last entries,
computes the cumulative return over exactly `[d0, d1]`, and returns
`round(pow(1 + cum_rtn, exp) - 1, 4)` with exponent `250/calendar_days`
for `'d'`, `52/weekly_periods_elapsed` for `'w'` and
`12/monthly_periods_elapsed` for `'m'` (the real-valued `pow` is the
exact-fragment model `pyPow`). -/
theorem annualized_return_formula (s : Series) (d0 d1 : Date) (f : Freq)
    (a b : Date × ℚ) (e : ℚ) (hs : SortedSeries s)
    (ha : (filterDates s d0 d1).head? = some a)
    (hb : (filterDates s d0 d1).getLast? = some b)
    (he : annExp a.1 b.1 f = some e) :
    (get_annualized_return s d0 d1 f
        = (pyPow (1 + round4 ((b.2 - a.2) / a.2)) e).map
            (fun y => round4 (y - 1)))
    ∧ get_cumulative_return s d0 d1 = some (round4 ((b.2 - a.2) / a.2))
    ∧ (f = Freq.d →
        e = 250 / ((toOrdinal b.1 - toOrdinal a.1 : ℤ) : ℚ))
    ∧ (f = Freq.w → e = 52 / ((weekIdx b.1 - weekIdx a.1 : ℤ) : ℚ))
    ∧ (f = Freq.m → e = 12 / ((monthIdx b.1 - monthIdx a.1 : ℤ) : ℚ)) := by
  have hws : SortedSeries (filterDates s d0 d1) := List.Pairwise.filter _ hs
  refine ⟨?_, ?_, ?_, ?_, ?_⟩
  · unfold get_annualized_return
    dsimp only
    rw [ha, hb]
    dsimp only
    rw [cumulative_of_window hws ha hb]
    dsimp only
    rw [he]
  · unfold get_cumulative_return
    dsimp only
    rw [ha, hb]
  · rintro rfl
    dsimp only [annExp] at he
    split_ifs at he with hz
    injection he with he
    rw [← he]
  · rintro rfl
    dsimp only [annExp] at he
    split_ifs at he with hz
    injection he with he
    rw [← he]
  · rintro rfl
    dsimp only [annExp] at he
    split_ifs at he with hz
    injection he with he
    rw [← he]

/-- C6 witness: a two-point series 250 calendar days apart, where the
exponent is exactly 1 and the annualized return is the cumulative
return 10%. -/
theorem annualized_return_formula_witness :
    (get_annualized_return [(⟨2020, 1, 1⟩, 100), (⟨2020, 9, 7⟩, 110)]
        ⟨2020, 1, 1⟩ ⟨2020, 12, 31⟩ Freq.d
      = (pyPow (1 + round4 ((110 - 100) / 100)) 1).map (fun y => round4 (y - 1)))
    ∧ get_annualized_return [(⟨2020, 1, 1⟩, 100), (⟨2020, 9, 7⟩, 110)]
        ⟨2020, 1, 1⟩ ⟨2020, 12, 31⟩ Freq.d = some (1/10) := by
  have h := annualized_return_formula
    [(⟨2020, 1, 1⟩, 100), (⟨2020, 9, 7⟩, 110)] ⟨2020, 1, 1⟩ ⟨2020, 12, 31⟩
    Freq.d (⟨2020, 1, 1⟩, 100) (⟨2020, 9, 7⟩, 110) 1
    (by decide)
    (by
      norm_num [filterDates, toOrdinal, daysBeforeMonth, daysInMonth, isLeap,
        List.filter, List.range, List.foldl])
    (by
      norm_num [filterDates, toOrdinal, daysBeforeMonth, daysInMonth, isLeap,
        List.filter, List.range, List.foldl])
    (by
      have hd : toOrdinal ⟨2020, 9, 7⟩ - toOrdinal ⟨2020, 1, 1⟩ = 250 := by
        decide
      dsimp only [annExp]
      rw [hd]
      norm_num)
  refine ⟨h.1, ?_⟩
  rw [h.1]
  norm_num [pyPow, round4, roundHalfEven]

/-! ## C8 -/

/-- C8: confirmed.  `get_portfolio` returns `PRes.ok pf` exactly when
the holdings decompose as a prefix of periods not containing `t`
followed by a first entry whose period contains `t` and whose portfolio
is `pf`; and it raises the lookup error exactly when no recorded period
contains `t` (before the first period, after the last, or in a gap). -/
theorem get_portfolio_first_match (h : List (PeriodT × Portfolio)) (t : ℤ) :
    (∀ pf : Portfolio,
      get_portfolio h t = PRes.ok pf ↔
        ∃ pre pr rest, h = pre ++ (pr, pf) :: rest
          ∧ contains_time pr t = true
          ∧ ∀ e ∈ pre, contains_time e.1 t = false)
    ∧ (get_portfolio h t = PRes.err PyErr.lookupError ↔
        ∀ e ∈ h, contains_time e.1 t = false) := by
  induction h with
  | nil =>
    constructor
    · intro pf
      constructor
      · intro habs
        exact absurd habs (by simp [get_portfolio])
      · rintro ⟨pre, pr, rest, habs, -, -⟩
        exact absurd habs (by simp)
    · simp [get_portfolio]
  | cons x tl ih =>
    cases hc : contains_time x.1 t with
    | true =>
      constructor
      · intro pf
        constructor
        · intro hok
          rw [get_portfolio, hc] at hok
          simp only [if_true] at hok
          cases hok
          exact ⟨[], x.1, tl, by simp, hc, by simp⟩
        · rintro ⟨pre, pr, rest, heq, hpr, hpre⟩
          cases pre with
          | nil =>
            simp only [List.nil_append] at heq
            cases heq
            rw [get_portfolio, hc]
            simp
          | cons q pre' =>
            have hq : x = q := by
              simpa using congrArg (fun l => l.head?) heq
            replace hq := hq.symm
            have : contains_time x.1 t = false := by
              rw [← hq]
              exact hpre q (List.mem_cons_self q pre')
            rw [hc] at this
            exact absurd this (by simp)
      · constructor
        · intro habs
          rw [get_portfolio, hc] at habs
          simp at habs
        · intro hall
          have := hall x (List.mem_cons_self x tl)
          rw [hc] at this
          exact absurd this (by simp)
    | false =>
      have hred : get_portfolio (x :: tl) t = get_portfolio tl t := by
        rw [get_portfolio, hc]
        simp
      constructor
      · intro pf
        rw [hred, (ih.1 pf)]
        constructor
        · rintro ⟨pre, pr, rest, heq, hpr, hpre⟩
          refine ⟨x :: pre, pr, rest, by rw [heq, List.cons_append], hpr, ?_⟩
          intro e he
          rcases List.mem_cons.mp he with rfl | hmem
          · exact hc
          · exact hpre e hmem
        · rintro ⟨pre, pr, rest, heq, hpr, hpre⟩
          cases pre with
          | nil =>
            simp only [List.nil_append] at heq
            have hx : x = (pr, pf) := by
              simpa using congrArg (fun l => l.head?) heq
            have : contains_time pr t = false := by
              rw [← hc, hx]
            rw [hpr] at this
            exact absurd this (by simp)
          | cons q pre' =>
            have htl : tl = pre' ++ (pr, pf) :: rest := by
              simpa using congrArg (fun l => l.tail) heq
            refine ⟨pre', pr, rest, htl, hpr, ?_⟩
            intro e he
            exact hpre e (List.mem_cons_of_mem q he)
      · rw [hred, ih.2]
        constructor
        · intro hall e he
          rcases List.mem_cons.mp he with rfl | hmem
          · exact hc
          · exact hall e hmem
        · intro hall e he
          exact hall e (List.mem_cons_of_mem x he)

/-- C8 witness: a one-period holdings looked up inside and outside the
period. -/
theorem get_portfolio_first_match_witness :
    get_portfolio [(⟨0, 10, 10⟩, ⟨[("A", 1)], [], 0⟩)] 5
        = PRes.ok ⟨[("A", 1)], [], 0⟩
    ∧ get_portfolio [(⟨0, 10, 10⟩, ⟨[("A", 1)], [], 0⟩)] 40
        = PRes.err PyErr.lookupError :=
  ⟨((get_portfolio_first_match [(⟨0, 10, 10⟩, ⟨[("A", 1)], [], 0⟩)] 5).1
      ⟨[("A", 1)], [], 0⟩).mpr
      ⟨[], ⟨0, 10, 10⟩, [], rfl, by decide, by simp⟩,
   (get_portfolio_first_match [(⟨0, 10, 10⟩, ⟨[("A", 1)], [], 0⟩)] 40).2.mpr
      (by decide)⟩

/-! ## C2 -/

theorem lastValid_eq_none (j : ℕ) (l : List (ℤ × List NFloat)) :
    lastValid j l = none ↔ ∀ r ∈ l, cellAt r j = none := by
  induction l with
  | nil => simp [lastValid]
  | cons r rest ih =>
    constructor
    · intro h
      cases hlv : lastValid j rest with
      | some v =>
        simp only [lastValid, hlv] at h
        exact absurd h (Option.some_ne_none v)
      | none =>
        simp only [lastValid, hlv] at h
        intro r' hr'
        rcases List.mem_cons.mp hr' with rfl | hmem
        · exact h
        · exact ih.mp hlv r' hmem
    · intro hall
      have hrest : lastValid j rest = none :=
        ih.mpr (fun r' hr' => hall r' (List.mem_cons_of_mem r hr'))
      simp only [lastValid, hrest]
      exact hall r (List.mem_cons_self r rest)

theorem lastValid_eq_some (j : ℕ) (l : List (ℤ × List NFloat))
    (hs : List.Pairwise (fun a b => a.1 < b.1) l) :
    ∀ v : ℚ, lastValid j l = some v ↔
      ∃ r ∈ l, cellAt r j = some v ∧
        ∀ r' ∈ l, (cellAt r' j).isSome = true → r'.1 ≤ r.1 := by
  induction l with
  | nil => intro v; simp [lastValid]
  | cons x rest ih =>
    have hp := List.pairwise_cons.mp hs
    intro v
    cases hlv : lastValid j rest with
    | some w =>
      obtain ⟨rl, hrlmem, hcell, hmax⟩ := ((ih hp.2) w).mp hlv
      constructor
      · intro h
        simp only [lastValid, hlv] at h
        injection h with h
        subst h
        refine ⟨rl, List.mem_cons_of_mem x hrlmem, hcell, ?_⟩
        intro r' hr' hsome
        rcases List.mem_cons.mp hr' with rfl | hmem
        · exact le_of_lt (hp.1 rl hrlmem)
        · exact hmax r' hmem hsome
      · rintro ⟨rv, hrvmem, hvcell, hvmax⟩
        simp only [lastValid, hlv]
        rcases List.mem_cons.mp hrvmem with rfl | hmem
        · have h1 : rl.1 ≤ rv.1 :=
            hvmax rl (List.mem_cons_of_mem rv hrlmem) (by simp [hcell])
          have h2 : rv.1 < rl.1 := hp.1 rl hrlmem
          exact absurd h1 (not_le.mpr h2)
        · have hlv2 : lastValid j rest = some v :=
            ((ih hp.2) v).mpr ⟨rv, hmem, hvcell,
              fun r' hr' hsome => hvmax r' (List.mem_cons_of_mem x hr') hsome⟩
          rw [hlv] at hlv2
          injection hlv2 with hlv2
          rw [hlv2]
    | none =>
      have hallnone : ∀ r' ∈ rest, cellAt r' j = none :=
        (lastValid_eq_none j rest).mp hlv
      constructor
      · intro h
        simp only [lastValid, hlv] at h
        refine ⟨x, List.mem_cons_self x rest, h, ?_⟩
        intro r' hr' hsome
        rcases List.mem_cons.mp hr' with rfl | hmem
        · exact le_refl _
        · rw [hallnone r' hmem] at hsome
          exact absurd hsome (by simp)
      · rintro ⟨rv, hrvmem, hvcell, -⟩
        simp only [lastValid, hlv]
        rcases List.mem_cons.mp hrvmem with rfl | hmem
        · exact hvcell
        · rw [hallnone rv hmem] at hvcell
          exact absurd hvcell (by simp)

theorem findRow_trim_of_mem {date : ℤ} {l : List (ℤ × List NFloat)}
    (hs : List.Pairwise (fun a b => a.1 < b.1) l) {r : ℤ × List NFloat}
    (hr : r ∈ l) (hd : r.1 = date) :
    findRow date (l.filter (fun x => decide (x.1 ≤ date))) = some r := by
  induction l with
  | nil => simp at hr
  | cons a rest ih =>
    have hp := List.pairwise_cons.mp hs
    rcases List.mem_cons.mp hr with rfl | hmem
    · have h1 : decide (r.1 ≤ date) = true := by simp [hd]
      simp [List.filter_cons, h1, findRow, hd]
    · have halt : a.1 < date := hd ▸ hp.1 r hmem
      have h1 : decide (a.1 ≤ date) = true := by simp [le_of_lt halt]
      have h2 : ¬ a.1 = date := ne_of_lt halt
      simp only [List.filter_cons, h1, if_true, findRow, h2, if_false]
      exact ih hp.2 hmem

theorem findRow_trim_of_not_mem {date : ℤ} {l : List (ℤ × List NFloat)}
    (hnone : ∀ r ∈ l, r.1 ≠ date) :
    findRow date (l.filter (fun x => decide (x.1 ≤ date))) = none := by
  induction l with
  | nil => simp [findRow]
  | cons a rest ih =>
    have ha := hnone a (List.mem_cons_self a rest)
    have ihr := ih (fun r hr => hnone r (List.mem_cons_of_mem a hr))
    cases h1 : decide (a.1 ≤ date) with
    | true => simp only [List.filter_cons, h1, if_true, findRow, ha, if_false]
              exact ihr
    | false => simp only [List.filter_cons, h1, if_false]
               exact ihr

/-- C2 (amended): the actual per-ticker valuation policy.  With a sorted
price index and the ticker present in the columns: (a) if the table has
a row at `date` whose cell for the ticker is a valid price, that price
is used; (b) if the row exists but the cell is NaN, the NaN is used
as-is and propagates into the valuation — no substitution happens;
(c) only when the table has no row at `date` does the code substitute,
and then it returns exactly the most recent valid price strictly before
`date`, or raises when no valid price at or before `date` exists. -/
theorem stock_valuation_policy (tbl : PriceTable) (date : ℤ) (t : String)
    (j : ℕ) (hs : List.Pairwise (fun a b => a.1 < b.1) tbl.rows)
    (hj : tbl.cols.findIdx? (fun c => c = t) = some j) :
    (∀ r ∈ tbl.rows, r.1 = date → ∀ v : ℚ, cellAt r j = some v →
      stockPrice (trimTable tbl date) date t = PRes.ok (some v))
    ∧ (∀ r ∈ tbl.rows, r.1 = date → cellAt r j = none →
      stockPrice (trimTable tbl date) date t = PRes.ok none)
    ∧ ((∀ r ∈ tbl.rows, r.1 ≠ date) →
      (∀ v : ℚ,
        stockPrice (trimTable tbl date) date t = PRes.ok (some v) ↔
          ∃ r ∈ tbl.rows, r.1 < date ∧ cellAt r j = some v ∧
            ∀ r' ∈ tbl.rows, r'.1 < date → (cellAt r' j).isSome = true →
              r'.1 ≤ r.1)
      ∧ (stockPrice (trimTable tbl date) date t = PRes.err PyErr.keyError ↔
          ∀ r ∈ tbl.rows, r.1 < date → cellAt r j = none)) := by
  refine ⟨?_, ?_, ?_⟩
  · intro r hr hd v hv
    unfold stockPrice trimTable
    dsimp only
    rw [hj]
    dsimp only
    rw [findRow_trim_of_mem hs hr hd]
    dsimp only
    rw [hv]
  · intro r hr hd hv
    unfold stockPrice trimTable
    dsimp only
    rw [hj]
    dsimp only
    rw [findRow_trim_of_mem hs hr hd]
    dsimp only
    rw [hv]
  · intro hnone
    have hfr : findRow date (tbl.rows.filter (fun x => decide (x.1 ≤ date)))
        = none :=
      findRow_trim_of_not_mem (fun r hr => hnone r hr)
    have hsf : List.Pairwise (fun a b => a.1 < b.1)
        (tbl.rows.filter (fun x => decide (x.1 ≤ date))) :=
      List.Pairwise.filter _ hs
    constructor
    · intro v
      unfold stockPrice trimTable
      dsimp only
      rw [hj]
      dsimp only
      rw [hfr]
      dsimp only
      constructor
      · intro h
        cases hlv : lastValid j (tbl.rows.filter (fun x => decide (x.1 ≤ date))) with
        | none =>
          rw [hlv] at h
          exact absurd h (by simp)
        | some w =>
          rw [hlv] at h
          dsimp only at h
          injection h with h
          injection h with h
          subst h
          obtain ⟨r, hrf, hcell, hmaxf⟩ :=
            (lastValid_eq_some j _ hsf w).mp hlv
          obtain ⟨hrmem, hrle⟩ := List.mem_filter.mp hrf
          refine ⟨r, hrmem, ?_, hcell, ?_⟩
          · exact lt_of_le_of_ne (by simpa using hrle) (hnone r hrmem)
          · intro r' hr'mem hr'lt hsome
            exact hmaxf r'
              (List.mem_filter.mpr ⟨hr'mem, by simp [le_of_lt hr'lt]⟩) hsome
      · rintro ⟨r, hrmem, hrlt, hcell, hmax⟩
        have hrf : r ∈ tbl.rows.filter (fun x => decide (x.1 ≤ date)) :=
          List.mem_filter.mpr ⟨hrmem, by simp [le_of_lt hrlt]⟩
        have hlv : lastValid j (tbl.rows.filter (fun x => decide (x.1 ≤ date)))
            = some v := by
          refine (lastValid_eq_some j _ hsf v).mpr ⟨r, hrf, hcell, ?_⟩
          intro r' hr'f hsome
          obtain ⟨hr'mem, hr'le⟩ := List.mem_filter.mp hr'f
          have hr'lt : r'.1 < date :=
            lt_of_le_of_ne (by simpa using hr'le) (hnone r' hr'mem)
          exact hmax r' hr'mem hr'lt hsome
        rw [hlv]
    · unfold stockPrice trimTable
      dsimp only
      rw [hj]
      dsimp only
      rw [hfr]
      dsimp only
      constructor
      · intro h
        cases hlv : lastValid j (tbl.rows.filter (fun x => decide (x.1 ≤ date))) with
        | some w =>
          rw [hlv] at h
          exact absurd h (by simp)
        | none =>
          have hall := (lastValid_eq_none j _).mp hlv
          intro r hrmem hrlt
          exact hall r (List.mem_filter.mpr ⟨hrmem, by simp [le_of_lt hrlt]⟩)
      · intro hall
        have hlv : lastValid j (tbl.rows.filter (fun x => decide (x.1 ≤ date)))
            = none := by
          refine (lastValid_eq_none j _).mpr ?_
          intro r hrf
          obtain ⟨hrmem, hrle⟩ := List.mem_filter.mp hrf
          exact hall r hrmem
            (lt_of_le_of_ne (by simpa using hrle) (hnone r hrmem))
        rw [hlv]

/-- C2 counterexample: the claim's stale-price substitution does not
happen when the date's row exists with a NaN cell.  Ticker A trades at 5
on day 0 and has a stored NaN on day 1; valuing 10 long shares on day 1
returns NaN (`PRes.ok none`) — not the claimed `50` from the most recent
valid price strictly before day 1, which exists (`lastValid` finds 5) —
and it does not raise either. -/
theorem stale_policy_nan_counterexample :
    get_stock_liquidation ⟨[("A", 10)], [], 0⟩ 1
        ⟨["A"], [(0, [some 5]), (1, [none])]⟩ = PRes.ok none
    ∧ lastValid 0 [((0 : ℤ), [some (5 : ℚ)])] = some 5
    ∧ PRes.ok (none : NFloat) ≠ PRes.ok (some (50 : ℚ)) := by
  refine ⟨by decide, by decide, by decide⟩

/-- C2 witness: the amended policy applied concretely — ticker A trades
at 5 on day 0, day 1 has no row, so valuation on day 1 substitutes the
day-0 price. -/
theorem stock_valuation_policy_witness :
    stockPrice (trimTable ⟨["A"], [(0, [some 5])]⟩ 1) 1 "A"
      = PRes.ok (some 5) :=
  (((stock_valuation_policy ⟨["A"], [(0, [some 5])]⟩ 1 "A" 0 (by decide)
      (by decide)).2.2 (by decide)).1 5).mpr
    ⟨(0, [some 5]), by decide, by decide, by decide, by decide⟩
